import Mathlib

/-!
Shallow embedding of the Ginzburg-Landau simulation core (src/src/main.ts).

The TypeScript class `GinzburgLandauSimulation` keeps the complex field
`psi = u + i v` in two `Float32Array`s plus a double buffer.  Here the
arrays are `List ℝ` (arithmetic is modelled over the reals), reads go
through `getA` (JS reads never go out of range for an allocated field),
and the per-cell bodies of `updatePhysics`, `imprintSingleVortex` and
`draw` are translated line by line.
-/

namespace Ginzburg

noncomputable section

/-- Array read `a[i]`; the simulation only reads in-range indices. -/
def getA (a : List ℝ) (i : ℕ) : ℝ := a.getD i 0

/-- Row-major index `y * w + x` used throughout `main.ts`. -/
def idx (w x y : ℕ) : ℕ := y * w + x

/-- Wrapped decrement `(x - 1 + n) % n` (JS computes `x - 1 + n ≥ 0` exactly,
so natural-number arithmetic `x + n - 1` is the same value). -/
def wrapDec (x n : ℕ) : ℕ := (x + n - 1) % n

/-- Wrapped increment `(x + 1) % n`. -/
def wrapInc (x n : ℕ) : ℕ := (x + 1) % n

/-- Discrete 5-point Laplacian stencil with periodic wrap, as read off the
neighbour loads in `updatePhysics` (main.ts lines 275-287). -/
def laplacian (w h : ℕ) (a : List ℝ) (x y : ℕ) : ℝ :=
  getA a (idx w (wrapDec x w) y) + getA a (idx w (wrapInc x w) y) +
    getA a (idx w x (wrapDec y h)) + getA a (idx w x (wrapInc y h)) -
    4 * getA a (idx w x y)

/-- Body of the main solver loop of `updatePhysics` for one cell `(x, y)`:
returns the pair written to `(uNext[i], vNext[i])`. -/
def solveCell (w h : ℕ) (diffusion dt : ℝ) (us vs : List ℝ) (x y : ℕ) : ℝ × ℝ :=
  let i := idx w x y
  let u := getA us i
  let v := getA vs i
  let left := getA us (idx w (wrapDec x w) y)
  let right := getA us (idx w (wrapInc x w) y)
  let up := getA us (idx w x (wrapDec y h))
  let down := getA us (idx w x (wrapInc y h))
  let laplacianU := left + right + up + down - 4 * u
  let leftV := getA vs (idx w (wrapDec x w) y)
  let rightV := getA vs (idx w (wrapInc x w) y)
  let upV := getA vs (idx w x (wrapDec y h))
  let downV := getA vs (idx w x (wrapInc y h))
  let laplacianV := leftV + rightV + upV + downV - 4 * v
  let magSq := u * u + v * v
  let reaction := 1 - magSq
  (u + dt * (diffusion * laplacianU + u * reaction),
   v + dt * (diffusion * laplacianV + v * reaction))

/-- Simulation state: grid dimensions, the two field components, the double
buffer, and the physics constants of the class. -/
structure Sim where
  w : ℕ
  h : ℕ
  u : List ℝ
  v : List ℝ
  uNext : List ℝ
  vNext : List ℝ
  diffusion : ℝ
  dt : ℝ

/-- One call to `updatePhysics`.  The noise branch perturbs the current
buffer in place before the stencil pass; `xiU`/`xiV` supply the values of
`Math.random() - 0.5` per cell.  The solver loop over `y < h, x < w` writes
exactly the indices `0 .. w*h-1`, recovered here as `x = i % w`, `y = i / w`;
afterwards current and next buffers are swapped. -/
def updatePhysics (s : Sim) (noiseLevel : ℝ) (xiU xiV : ℕ → ℝ) : Sim :=
  let size := s.w * s.h
  let us := if noiseLevel > 0 then
      (List.range size).map (fun i => getA s.u i + xiU i * (noiseLevel * 0.1))
    else s.u
  let vs := if noiseLevel > 0 then
      (List.range size).map (fun i => getA s.v i + xiV i * (noiseLevel * 0.1))
    else s.v
  { s with
    u := (List.range size).map
      (fun i => (solveCell s.w s.h s.diffusion s.dt us vs (i % s.w) (i / s.w)).1),
    v := (List.range size).map
      (fun i => (solveCell s.w s.h s.diffusion s.dt us vs (i % s.w) (i / s.w)).2),
    uNext := us,
    vNext := vs }

/-- Truncation toward zero, the rounding used by the JS `%` operator. -/
def rtrunc (x : ℝ) : ℤ := if 0 ≤ x then ⌊x⌋ else -⌊-x⌋

/-- JS remainder `a % b` on numbers: `a - b * trunc (a / b)` (sign of the
dividend). -/
def jsMod (a b : ℝ) : ℝ := a - b * rtrunc (a / b)

/-- Shortest-displacement wrap of `imprintSingleVortex` (main.ts lines
215-218): two sequential conditional corrections by the extent `e`. -/
def wrapDelta (d e : ℝ) : ℝ :=
  let d1 := if d > e / 2 then d - e else d
  if d1 < -(e / 2) then d1 + e else d1

/-- JS `Math.atan2 y x` for real (not signed-zero) arguments. -/
def atan2 (y x : ℝ) : ℝ :=
  if 0 < x then Real.arctan (y / x)
  else if x < 0 then
    (if 0 ≤ y then Real.arctan (y / x) + Real.pi else Real.arctan (y / x) - Real.pi)
  else
    (if 0 < y then Real.pi / 2 else if y < 0 then -(Real.pi / 2) else 0)

/-- Core profile `min(1, dist/4)` (main.ts line 230). -/
def coreProfile (d : ℝ) : ℝ := min 1 (d / 4)

/-- Soft-core profile `0.2 + 0.8 * tanh (coreProfile)` (main.ts line 231). -/
def softProfile (d : ℝ) : ℝ := 0.2 + 0.8 * Real.tanh (coreProfile d)

/-- Torus distance from the (wrapped) vortex centre `(x1, y1)` to cell
`(x, y)`, i.e. `sqrt (dx1*dx1 + dy1*dy1)` of `imprintSingleVortex`. -/
def cellDist (w h x1 y1 : ℝ) (x y : ℕ) : ℝ :=
  Real.sqrt (wrapDelta ((x : ℝ) - x1) w * wrapDelta ((x : ℝ) - x1) w +
    wrapDelta ((y : ℝ) - y1) h * wrapDelta ((y : ℝ) - y1) h)

/-- Angle `ang1 = atan2 dy1 dx1` of a cell relative to the vortex core. -/
def cellAng (w h x1 y1 : ℝ) (x y : ℕ) : ℝ :=
  atan2 (wrapDelta ((y : ℝ) - y1) h) (wrapDelta ((x : ℝ) - x1) w)

/-- Body of the `imprintSingleVortex` loop for one cell: phase rotation by
`deltaPhase = ang1 * winding` followed by the soft-core magnitude scaling
`softProfile dist1`. -/
def imprintCell (w h x1 y1 winding : ℝ) (x y : ℕ) (u v : ℝ) : ℝ × ℝ :=
  let deltaPhase := cellAng w h x1 y1 x y * winding
  let softP := softProfile (cellDist w h x1 y1 x y)
  let cosP := Real.cos deltaPhase
  let sinP := Real.sin deltaPhase
  ((u * cosP - v * sinP) * softP, (u * sinP + v * cosP) * softP)

/-- Wrapped x-coordinate of the vortex centre: `x1 = (cx + w) % w`. -/
def centerX (s : Sim) (cx : ℝ) : ℝ := jsMod (cx + s.w) s.w

/-- Wrapped y-coordinate of the vortex centre: `y1 = (cy + h) % h`. -/
def centerY (s : Sim) (cy : ℝ) : ℝ := jsMod (cy + s.h) s.h

/-- One call to `imprintSingleVortex cx cy winding`: a full-grid in-place
rewrite of the field. -/
def imprint (s : Sim) (cx cy winding : ℝ) : Sim :=
  { s with
    u := (List.range (s.w * s.h)).map (fun i =>
      (imprintCell s.w s.h (centerX s cx) (centerY s cy) winding
        (i % s.w) (i / s.w) (getA s.u i) (getA s.v i)).1),
    v := (List.range (s.w * s.h)).map (fun i =>
      (imprintCell s.w s.h (centerX s cx) (centerY s cy) winding
        (i % s.w) (i / s.w) (getA s.u i) (getA s.v i)).2) }

/-- Cell magnitude `sqrt (u*u + v*v)` as computed in `draw`. -/
def magCell (u v : ℝ) : ℝ := Real.sqrt (u * u + v * v)

/-- Phase-to-hue map of `draw` (main.ts line 332):
`hue = (angle * 180 / pi + 360) % 360`. -/
def hueOf (phase : ℝ) : ℝ := jsMod (phase * 180 / Real.pi + 360) 360

/-- Buffer allocation of `setupCanvas` (main.ts lines 148-153): four fresh
zero-filled arrays of `w * h` cells. -/
def allocate (w h : ℕ) (diffusion dt : ℝ) : Sim :=
  ⟨w, h, List.replicate (w * h) 0, List.replicate (w * h) 0,
    List.replicate (w * h) 0, List.replicate (w * h) 0, diffusion, dt⟩

/-- Shape invariant: all four arrays have length `w * h`. -/
def goodShape (s : Sim) : Prop :=
  s.u.length = s.w * s.h ∧ s.v.length = s.w * s.h ∧
    s.uNext.length = s.w * s.h ∧ s.vNext.length = s.w * s.h

/-- An externally triggered core operation: a physics step or a vortex
injection. -/
inductive Op where
  | phys (noiseLevel : ℝ) (xiU xiV : ℕ → ℝ) : Op
  | vortex (cx cy winding : ℝ) : Op

/-- Application of one operation to the state. -/
def applyOp (s : Sim) : Op → Sim
  | Op.phys noiseLevel xiU xiV => updatePhysics s noiseLevel xiU xiV
  | Op.vortex cx cy winding => imprint s cx cy winding

/-- Uniform field `re = 1, im = 0` on the 4×4 grid of the spec scenarios,
with `D = 0.5`, `dt = 0.2`. -/
def uniformSim : Sim :=
  ⟨4, 4, List.replicate 16 1, List.replicate 16 0,
    List.replicate 16 0, List.replicate 16 0, 0.5, 0.2⟩

/-- Field that is zero except for the single boundary cell `(0, 0)`. -/
def spikeSim : Sim :=
  ⟨4, 4, (List.range 16).map (fun i => if i = 0 then 1 else 0),
    List.replicate 16 0, List.replicate 16 0, List.replicate 16 0, 0.5, 0.2⟩

/-- Zero noise oracle. -/
def xi0 : ℕ → ℝ := fun _ => 0

/- ### Basic extraction lemmas -/

theorem getA_map_range (f : ℕ → ℝ) {n k : ℕ} (h : k < n) :
    getA ((List.range n).map f) k = f k := by
  simp [getA, List.getD_eq_getElem?_getD, List.getElem?_map, List.getElem?_range, h]

theorem getA_replicate (c : ℝ) {n k : ℕ} (h : k < n) :
    getA (List.replicate n c) k = c := by
  simp [getA, List.getD_eq_getElem?_getD, List.getElem?_replicate, h]

theorem getA_replicate_zero (n k : ℕ) :
    getA (List.replicate n (0 : ℝ)) k = 0 := by
  by_cases h : k < n
  · simp [getA, List.getD_eq_getElem?_getD, List.getElem?_replicate, h]
  · simp [getA, List.getD_eq_getElem?_getD, List.getElem?_replicate, h]

theorem idx_lt {w h x y : ℕ} (hx : x < w) (hy : y < h) : idx w x y < w * h := by
  have : y * w + x < h * w :=
    calc y * w + x < y * w + w := by omega
    _ = (y + 1) * w := by ring
    _ ≤ h * w := Nat.mul_le_mul_right _ (by omega)
  simpa [idx, Nat.mul_comm] using this

theorem idx_mod {w x : ℕ} (y : ℕ) (hx : x < w) : idx w x y % w = x := by
  rw [idx, Nat.mul_comm, Nat.mul_add_mod, Nat.mod_eq_of_lt hx]

theorem idx_div {w x : ℕ} (y : ℕ) (hx : x < w) : idx w x y / w = y := by
  rw [idx, Nat.mul_comm, Nat.mul_add_div (by omega), Nat.div_eq_of_lt hx,
    Nat.add_zero]

theorem updatePhysics_u_cell (s : Sim) (xiU xiV : ℕ → ℝ) {x y : ℕ}
    (hx : x < s.w) (hy : y < s.h) :
    getA (updatePhysics s 0 xiU xiV).u (idx s.w x y) =
      (solveCell s.w s.h s.diffusion s.dt s.u s.v x y).1 := by
  rw [updatePhysics]
  simp only [show ¬((0 : ℝ) > 0) by norm_num, if_false]
  rw [getA_map_range _ (idx_lt hx hy), idx_mod y hx, idx_div y hx]

theorem updatePhysics_v_cell (s : Sim) (xiU xiV : ℕ → ℝ) {x y : ℕ}
    (hx : x < s.w) (hy : y < s.h) :
    getA (updatePhysics s 0 xiU xiV).v (idx s.w x y) =
      (solveCell s.w s.h s.diffusion s.dt s.u s.v x y).2 := by
  rw [updatePhysics]
  simp only [show ¬((0 : ℝ) > 0) by norm_num, if_false]
  rw [getA_map_range _ (idx_lt hx hy), idx_mod y hx, idx_div y hx]

theorem solveCell_fst (w h : ℕ) (diffusion dt : ℝ) (us vs : List ℝ) (x y : ℕ) :
    (solveCell w h diffusion dt us vs x y).1 =
      getA us (idx w x y) + dt * (diffusion * laplacian w h us x y +
        getA us (idx w x y) *
          (1 - (getA us (idx w x y) * getA us (idx w x y) +
            getA vs (idx w x y) * getA vs (idx w x y)))) := rfl

theorem solveCell_snd (w h : ℕ) (diffusion dt : ℝ) (us vs : List ℝ) (x y : ℕ) :
    (solveCell w h diffusion dt us vs x y).2 =
      getA vs (idx w x y) + dt * (diffusion * laplacian w h vs x y +
        getA vs (idx w x y) *
          (1 - (getA us (idx w x y) * getA us (idx w x y) +
            getA vs (idx w x y) * getA vs (idx w x y)))) := rfl

theorem wrapDec_lt {x n : ℕ} (hn : 0 < n) : wrapDec x n < n := Nat.mod_lt _ hn

theorem wrapInc_lt {x n : ℕ} (hn : 0 < n) : wrapInc x n < n := Nat.mod_lt _ hn

/- ### The solver on the uniform magnitude-one field -/

theorem solveCell_uniform (i : ℕ) (hi : i < 16) :
    solveCell 4 4 0.5 0.2 (List.replicate 16 (1 : ℝ)) (List.replicate 16 (0 : ℝ))
      (i % 4) (i / 4) = (1, 0) := by
  have hx : i % 4 < 4 := by omega
  have hy : i / 4 < 4 := by omega
  have g1 : ∀ a b : ℕ, a < 4 → b < 4 →
      getA (List.replicate 16 (1 : ℝ)) (idx 4 a b) = 1 := by
    intro a b ha hb
    exact getA_replicate _ (by simpa using idx_lt ha hb)
  simp only [solveCell, g1 _ _ hx hy,
    g1 (wrapDec (i % 4) 4) (i / 4) (wrapDec_lt (by norm_num)) hy,
    g1 (wrapInc (i % 4) 4) (i / 4) (wrapInc_lt (by norm_num)) hy,
    g1 (i % 4) (wrapDec (i / 4) 4) hx (wrapDec_lt (by norm_num)),
    g1 (i % 4) (wrapInc (i / 4) 4) hx (wrapInc_lt (by norm_num)),
    getA_replicate_zero]
  norm_num

/- ### Claim theorems -/

/-- C1: for every allocated field and every cell `(x, y)`, one call to
`updatePhysics` with `noiseLevel = 0` produces at that cell exactly
`psi + dt * (diffusion * Laplacian psi + psi * (1 - |psi|^2))`, separately
in the real and imaginary components, where the Laplacian is the 4-neighbour
stencil with indices wrapped modulo the grid dimensions. -/
theorem step_euler_update (s : Sim) (_hs : goodShape s) (xiU xiV : ℕ → ℝ)
    {x y : ℕ} (hx : x < s.w) (hy : y < s.h) :
    getA (updatePhysics s 0 xiU xiV).u (idx s.w x y) =
      getA s.u (idx s.w x y) +
        s.dt * (s.diffusion * laplacian s.w s.h s.u x y +
          getA s.u (idx s.w x y) *
            (1 - (getA s.u (idx s.w x y) ^ 2 + getA s.v (idx s.w x y) ^ 2))) ∧
    getA (updatePhysics s 0 xiU xiV).v (idx s.w x y) =
      getA s.v (idx s.w x y) +
        s.dt * (s.diffusion * laplacian s.w s.h s.v x y +
          getA s.v (idx s.w x y) *
            (1 - (getA s.u (idx s.w x y) ^ 2 + getA s.v (idx s.w x y) ^ 2))) := by
  constructor
  · rw [updatePhysics_u_cell s xiU xiV hx hy, solveCell_fst]
    ring
  · rw [updatePhysics_v_cell s xiU xiV hx hy, solveCell_snd]
    ring

/-- Witness for C1 at the uniform 4×4 state and cell `(1, 2)`. -/
theorem step_euler_update_witness :
    goodShape uniformSim ∧ 1 < uniformSim.w ∧ 2 < uniformSim.h ∧
    (getA (updatePhysics uniformSim 0 xi0 xi0).u (idx uniformSim.w 1 2) =
      getA uniformSim.u (idx uniformSim.w 1 2) +
        uniformSim.dt * (uniformSim.diffusion *
            laplacian uniformSim.w uniformSim.h uniformSim.u 1 2 +
          getA uniformSim.u (idx uniformSim.w 1 2) *
            (1 - (getA uniformSim.u (idx uniformSim.w 1 2) ^ 2 +
              getA uniformSim.v (idx uniformSim.w 1 2) ^ 2))) ∧
    getA (updatePhysics uniformSim 0 xi0 xi0).v (idx uniformSim.w 1 2) =
      getA uniformSim.v (idx uniformSim.w 1 2) +
        uniformSim.dt * (uniformSim.diffusion *
            laplacian uniformSim.w uniformSim.h uniformSim.v 1 2 +
          getA uniformSim.v (idx uniformSim.w 1 2) *
            (1 - (getA uniformSim.u (idx uniformSim.w 1 2) ^ 2 +
              getA uniformSim.v (idx uniformSim.w 1 2) ^ 2)))) :=
  ⟨by simp [goodShape, uniformSim], by norm_num [uniformSim], by norm_num [uniformSim],
    step_euler_update uniformSim (by simp [goodShape, uniformSim]) xi0 xi0
      (by norm_num [uniformSim]) (by norm_num [uniformSim])⟩

/-- C3: on the 4×4 grid with every cell `re = 1, im = 0`, with
`diffusion = 0.5`, `dt = 0.2` and `noiseLevel = 0`, one `updatePhysics`
call leaves both component arrays exactly unchanged. -/
theorem uniform_field_fixed_point (xiU xiV : ℕ → ℝ) :
    (updatePhysics uniformSim 0 xiU xiV).u = uniformSim.u ∧
    (updatePhysics uniformSim 0 xiU xiV).v = uniformSim.v := by
  have hno : ¬ ((0 : ℝ) > 0) := by norm_num
  constructor
  · apply List.ext_getElem
    · simp [updatePhysics, uniformSim, hno]
    · intro n h1 h2
      have h16 : n < 16 := by simpa [uniformSim] using h2
      simp only [updatePhysics, uniformSim, hno, if_false, List.getElem_map,
        List.getElem_range, List.getElem_replicate]
      rw [solveCell_uniform n h16]
  · apply List.ext_getElem
    · simp [updatePhysics, uniformSim, hno]
    · intro n h1 h2
      have h16 : n < 16 := by simpa [uniformSim] using h2
      simp only [updatePhysics, uniformSim, hno, if_false, List.getElem_map,
        List.getElem_range, List.getElem_replicate]
      rw [solveCell_uniform n h16]

/- ### Facts about the soft-core profile and the JS remainder -/

theorem tanh_lt_one (x : ℝ) : Real.tanh x < 1 := by
  rw [Real.tanh_eq_sinh_div_cosh, div_lt_one (Real.cosh_pos x), Real.sinh_eq,
    Real.cosh_eq]
  have := Real.exp_pos (-x)
  linarith

theorem tanh_nonneg {x : ℝ} (hx : 0 ≤ x) : 0 ≤ Real.tanh x := by
  rw [Real.tanh_eq_sinh_div_cosh]
  exact div_nonneg (Real.sinh_nonneg_iff.mpr hx) (Real.cosh_pos x).le

theorem tanh_lt_of_exp {t c : ℝ}
    (h : Real.exp (2 * t) * (1 - c) < 1 + c) : Real.tanh t < c := by
  rw [Real.tanh_eq_sinh_div_cosh, div_lt_iff₀ (Real.cosh_pos t), Real.sinh_eq,
    Real.cosh_eq]
  have hE := Real.exp_pos t
  have hEn := Real.exp_pos (-t)
  have h2 : Real.exp (2 * t) = Real.exp t * Real.exp t := by
    rw [two_mul, Real.exp_add]
  have hprod : Real.exp t * Real.exp (-t) = 1 := by
    rw [← Real.exp_add]
    simp
  rw [h2] at h
  nlinarith [hE, hEn, hprod, h]

theorem lt_tanh_of_exp {t c : ℝ}
    (h : 1 + c < Real.exp (2 * t) * (1 - c)) : c < Real.tanh t := by
  rw [Real.tanh_eq_sinh_div_cosh, lt_div_iff₀ (Real.cosh_pos t), Real.sinh_eq,
    Real.cosh_eq]
  have hE := Real.exp_pos t
  have hEn := Real.exp_pos (-t)
  have h2 : Real.exp (2 * t) = Real.exp t * Real.exp t := by
    rw [two_mul, Real.exp_add]
  have hprod : Real.exp t * Real.exp (-t) = 1 := by
    rw [← Real.exp_add]
    simp
  rw [h2] at h
  nlinarith [hE, hEn, hprod, h]

theorem coreProfile_nonneg {d : ℝ} (hd : 0 ≤ d) : 0 ≤ coreProfile d :=
  le_min (by norm_num) (by positivity)

theorem softProfile_pos {d : ℝ} (hd : 0 ≤ d) : 0 < softProfile d := by
  have := tanh_nonneg (coreProfile_nonneg hd)
  unfold softProfile
  linarith

theorem softProfile_lt_one (d : ℝ) : softProfile d < 1 := by
  have := tanh_lt_one (coreProfile d)
  unfold softProfile
  linarith

theorem rtrunc_eval {x : ℝ} {z : ℤ} (h0 : 0 ≤ x) (h1 : (z : ℝ) ≤ x)
    (h2 : x < (z : ℝ) + 1) : rtrunc x = z := by
  rw [rtrunc, if_pos h0, Int.floor_eq_iff]
  exact ⟨h1, h2⟩

theorem rtrunc_neg_small {x : ℝ} (h0 : x < 0) (h1 : -1 < x) : rtrunc x = 0 := by
  rw [rtrunc, if_neg (by linarith)]
  have hf : ⌊-x⌋ = 0 := by
    rw [Int.floor_eq_iff]
    refine ⟨?_, ?_⟩
    · exact_mod_cast (by linarith : (0 : ℝ) ≤ -x)
    · push_cast
      linarith
  rw [hf]
  ring

theorem jsMod_eval {a b : ℝ} {z : ℤ} (h : rtrunc (a / b) = z) :
    jsMod a b = a - b * z := by
  rw [jsMod, h]

theorem jsMod_nonneg_eq {a b : ℝ} (ha : 0 ≤ a) (hb : 0 < b) :
    jsMod a b = b * Int.fract (a / b) := by
  rw [jsMod, rtrunc_eval (div_nonneg ha hb.le) (Int.floor_le _)
    (Int.lt_floor_add_one _), Int.fract, mul_sub, mul_div_cancel₀ a hb.ne']

theorem jsMod_add_int_mul {a b : ℝ} (k : ℤ) (hb : 0 < b) (ha : 0 ≤ a)
    (ha' : 0 ≤ a + k * b) : jsMod (a + k * b) b = jsMod a b := by
  rw [jsMod_nonneg_eq ha' hb, jsMod_nonneg_eq ha hb]
  have : (a + k * b) / b = a / b + k := by
    field_simp
  rw [this, Int.fract_add_int]

/- ### Extraction and isometry lemmas for the vortex injector -/

theorem imprint_u_cell (s : Sim) (cx cy winding : ℝ) {i : ℕ}
    (hi : i < s.w * s.h) :
    getA (imprint s cx cy winding).u i =
      (imprintCell s.w s.h (centerX s cx) (centerY s cy) winding
        (i % s.w) (i / s.w) (getA s.u i) (getA s.v i)).1 := by
  rw [imprint]
  exact getA_map_range _ hi

theorem imprint_v_cell (s : Sim) (cx cy winding : ℝ) {i : ℕ}
    (hi : i < s.w * s.h) :
    getA (imprint s cx cy winding).v i =
      (imprintCell s.w s.h (centerX s cx) (centerY s cy) winding
        (i % s.w) (i / s.w) (getA s.u i) (getA s.v i)).2 := by
  rw [imprint]
  exact getA_map_range _ hi

theorem imprintCell_fst (w h x1 y1 winding : ℝ) (x y : ℕ) (u v : ℝ) :
    (imprintCell w h x1 y1 winding x y u v).1 =
      (u * Real.cos (cellAng w h x1 y1 x y * winding) -
        v * Real.sin (cellAng w h x1 y1 x y * winding)) *
        softProfile (cellDist w h x1 y1 x y) := rfl

theorem imprintCell_snd (w h x1 y1 winding : ℝ) (x y : ℕ) (u v : ℝ) :
    (imprintCell w h x1 y1 winding x y u v).2 =
      (u * Real.sin (cellAng w h x1 y1 x y * winding) +
        v * Real.cos (cellAng w h x1 y1 x y * winding)) *
        softProfile (cellDist w h x1 y1 x y) := rfl

theorem rotScale_mag (u v c s' p : ℝ) (hcs : s' ^ 2 + c ^ 2 = 1) (hp : 0 ≤ p) :
    magCell ((u * c - v * s') * p) ((u * s' + v * c) * p) = p * magCell u v := by
  unfold magCell
  have key : (u * c - v * s') * p * ((u * c - v * s') * p) +
      (u * s' + v * c) * p * ((u * s' + v * c) * p) =
      p ^ 2 * (u * u + v * v) := by
    linear_combination (p ^ 2 * (u ^ 2 + v ^ 2)) * hcs
  rw [key, Real.sqrt_mul (sq_nonneg p), Real.sqrt_sq hp]

theorem cellDist_nonneg (w h x1 y1 : ℝ) (x y : ℕ) :
    0 ≤ cellDist w h x1 y1 x y := Real.sqrt_nonneg _

theorem imprintCell_mag (w h x1 y1 winding : ℝ) (x y : ℕ) (u v : ℝ) :
    magCell (imprintCell w h x1 y1 winding x y u v).1
        (imprintCell w h x1 y1 winding x y u v).2 =
      softProfile (cellDist w h x1 y1 x y) * magCell u v := by
  rw [imprintCell_fst, imprintCell_snd]
  exact rotScale_mag u v _ _ _ (Real.sin_sq_add_cos_sq _)
    (softProfile_pos (cellDist_nonneg w h x1 y1 x y)).le

theorem imprint_mag_cell (s : Sim) (cx cy winding : ℝ) {i : ℕ}
    (hi : i < s.w * s.h) :
    magCell (getA (imprint s cx cy winding).u i)
        (getA (imprint s cx cy winding).v i) =
      softProfile (cellDist s.w s.h (centerX s cx) (centerY s cy)
          (i % s.w) (i / s.w)) *
        magCell (getA s.u i) (getA s.v i) := by
  rw [imprint_u_cell s cx cy winding hi, imprint_v_cell s cx cy winding hi,
    imprintCell_mag]

theorem wrapDec_zero {w : ℕ} (hw : 0 < w) : wrapDec 0 w = w - 1 := by
  unfold wrapDec
  rw [Nat.zero_add, Nat.mod_eq_of_lt (by omega)]

theorem wrapInc_last {w : ℕ} (hw : 0 < w) : wrapInc (w - 1) w = 0 := by
  unfold wrapInc
  rw [Nat.sub_add_cancel (by omega), Nat.mod_self]

/-- C2: the Laplacian stencil wraps: at `x = 0` the left neighbour read is
the cell `x = w - 1` of the same row, and at `x = w - 1` the right
neighbour read is the cell `x = 0` (the y axis uses the same two index
maps `wrapDec`/`wrapInc`); and starting from a 4×4 field that is zero
except at the boundary cell `(0, 0)`, one zero-noise `updatePhysics` call
produces a nonzero value in the wrap-around neighbour `(3, 0)` on the
opposite edge, which was zero before. -/
theorem laplacian_periodic_wrap :
    (∀ (w h : ℕ) (a : List ℝ) (y : ℕ), 0 < w →
      laplacian w h a 0 y =
        getA a (idx w (w - 1) y) + getA a (idx w (wrapInc 0 w) y) +
          getA a (idx w 0 (wrapDec y h)) + getA a (idx w 0 (wrapInc y h)) -
          4 * getA a (idx w 0 y)) ∧
    (∀ (w h : ℕ) (a : List ℝ) (y : ℕ), 0 < w →
      laplacian w h a (w - 1) y =
        getA a (idx w (wrapDec (w - 1) w) y) + getA a (idx w 0 y) +
          getA a (idx w (w - 1) (wrapDec y h)) +
          getA a (idx w (w - 1) (wrapInc y h)) -
          4 * getA a (idx w (w - 1) y)) ∧
    getA (updatePhysics spikeSim 0 xi0 xi0).u (idx 4 3 0) ≠ 0 ∧
    getA spikeSim.u (idx 4 3 0) = 0 := by
  have gs : ∀ k : ℕ, k < 16 → getA spikeSim.u k = if k = 0 then 1 else 0 :=
    fun k hk => getA_map_range _ hk
  have gz : ∀ k : ℕ, getA spikeSim.v k = 0 := fun k => getA_replicate_zero 16 k
  refine ⟨?_, ?_, ?_, ?_⟩
  · intro w h a y hw
    rw [laplacian, wrapDec_zero hw]
  · intro w h a y hw
    rw [laplacian, wrapInc_last hw]
  · have e : getA (updatePhysics spikeSim 0 xi0 xi0).u (idx 4 3 0) =
        (solveCell 4 4 0.5 0.2 spikeSim.u spikeSim.v 3 0).1 :=
      updatePhysics_u_cell spikeSim xi0 xi0
        (by norm_num [spikeSim]) (by norm_num [spikeSim])
    rw [e, solveCell_fst, laplacian]
    norm_num [idx, wrapDec, wrapInc]
    rw [gs 2 (by norm_num), gs 0 (by norm_num), gs 15 (by norm_num),
      gs 7 (by norm_num), gs 3 (by norm_num), gz 3]
    norm_num
  · rw [show idx 4 3 0 = 3 from rfl, gs 3 (by norm_num)]
    norm_num

/-- Witness for C2 instantiating the wrap facts on the spike field at
`w = h = 4`, `y = 0`. -/
theorem laplacian_periodic_wrap_witness :
    (0 < 4 ∧
      laplacian 4 4 spikeSim.u 0 0 =
        getA spikeSim.u (idx 4 (4 - 1) 0) + getA spikeSim.u (idx 4 (wrapInc 0 4) 0) +
          getA spikeSim.u (idx 4 0 (wrapDec 0 4)) +
          getA spikeSim.u (idx 4 0 (wrapInc 0 4)) -
          4 * getA spikeSim.u (idx 4 0 0)) ∧
    laplacian 4 4 spikeSim.u (4 - 1) 0 =
      getA spikeSim.u (idx 4 (wrapDec (4 - 1) 4) 0) + getA spikeSim.u (idx 4 0 0) +
        getA spikeSim.u (idx 4 (4 - 1) (wrapDec 0 4)) +
        getA spikeSim.u (idx 4 (4 - 1) (wrapInc 0 4)) -
        4 * getA spikeSim.u (idx 4 (4 - 1) 0) :=
  ⟨⟨by norm_num, laplacian_periodic_wrap.1 4 4 spikeSim.u 0 (by norm_num)⟩,
    laplacian_periodic_wrap.2.1 4 4 spikeSim.u 0 (by norm_num)⟩

/- ### Concrete evaluations on the 4×4 uniform field -/

theorem castW_uniform : ((uniformSim.w : ℕ) : ℝ) = 4 := by
  norm_num [uniformSim]

theorem castH_uniform : ((uniformSim.h : ℕ) : ℝ) = 4 := by
  norm_num [uniformSim]

theorem centerX_uniform_two : centerX uniformSim 2 = 2 := by
  have h : rtrunc (((2 : ℝ) + 4) / 4) = 1 :=
    rtrunc_eval (by norm_num) (by norm_num) (by norm_num)
  rw [centerX, castW_uniform, jsMod_eval h]
  norm_num

theorem centerY_uniform_two : centerY uniformSim 2 = 2 := by
  have h : rtrunc (((2 : ℝ) + 4) / 4) = 1 :=
    rtrunc_eval (by norm_num) (by norm_num) (by norm_num)
  rw [centerY, castH_uniform, jsMod_eval h]
  norm_num

theorem wrapDelta_of_between {d e : ℝ} (h1 : ¬ d > e / 2) (h2 : ¬ d < -(e / 2)) :
    wrapDelta d e = d := by
  rw [wrapDelta, if_neg h1]
  exact if_neg h2

theorem softProfile_zero : softProfile 0 = 0.2 := by
  rw [softProfile, coreProfile]
  norm_num [Real.tanh_zero]

theorem mag_uniform_cell {i : ℕ} (hi : i < 16) :
    magCell (getA uniformSim.u i) (getA uniformSim.v i) = 1 := by
  have g1 : getA uniformSim.u i = 1 := getA_replicate _ hi
  have g2 : getA uniformSim.v i = 0 := getA_replicate _ hi
  rw [g1, g2, magCell]
  norm_num

theorem sqrt8_coreProfile : coreProfile (Real.sqrt 8) = Real.sqrt 2 / 2 := by
  have h4 : Real.sqrt 4 = 2 := by
    rw [show (4 : ℝ) = 2 ^ 2 by norm_num, Real.sqrt_sq (by norm_num)]
  have h8 : Real.sqrt 8 = 2 * Real.sqrt 2 := by
    rw [show (8 : ℝ) = 4 * 2 by norm_num,
      Real.sqrt_mul (by norm_num : (0 : ℝ) ≤ 4), h4]
  have hle : Real.sqrt 8 ≤ 4 := (Real.sqrt_le_left (by norm_num)).mpr (by norm_num)
  rw [coreProfile, min_eq_right (by linarith), h8]
  ring

theorem tanh_sqrt2_half_lt : Real.tanh (Real.sqrt 2 / 2) < 57 / 80 := by
  apply tanh_lt_of_exp
  rw [show 2 * (Real.sqrt 2 / 2) = Real.sqrt 2 by ring]
  have h1 : Real.sqrt 2 ≤ 3 / 2 := (Real.sqrt_le_left (by norm_num)).mpr (by norm_num)
  have h2 : Real.exp (Real.sqrt 2) ≤ Real.exp (3 / 2) := Real.exp_le_exp.mpr h1
  have h3 : Real.exp (3 / 2) * Real.exp (3 / 2) = Real.exp 3 := by
    rw [← Real.exp_add]
    norm_num
  have h4 : Real.exp 3 = Real.exp 1 * Real.exp 1 * Real.exp 1 := by
    rw [← Real.exp_add, ← Real.exp_add]
    norm_num
  have h5 := Real.exp_one_lt_d9
  have h6 := Real.exp_pos 1
  have h7 : Real.exp 3 < 20.09 := by nlinarith
  have h8 : Real.exp (3 / 2 : ℝ) < 137 / 23 := by
    nlinarith [Real.exp_pos (3 / 2 : ℝ)]
  nlinarith

theorem lt_tanh_sqrt2_half : 1 / 2 < Real.tanh (Real.sqrt 2 / 2) := by
  apply lt_tanh_of_exp
  rw [show 2 * (Real.sqrt 2 / 2) = Real.sqrt 2 by ring]
  have h1 : (7 / 5 : ℝ) ≤ Real.sqrt 2 :=
    (Real.le_sqrt (by norm_num) (by norm_num)).mpr (by norm_num)
  have h2 : Real.exp (7 / 5 : ℝ) ≤ Real.exp (Real.sqrt 2) := Real.exp_le_exp.mpr h1
  have h3 : Real.exp (7 / 5 : ℝ) = Real.exp (7 / 20 : ℝ) ^ 4 := by
    rw [← Real.exp_nat_mul]
    norm_num
  have h4 : (27 / 20 : ℝ) ≤ Real.exp (7 / 20 : ℝ) := by
    have := Real.add_one_le_exp (7 / 20 : ℝ)
    linarith
  have h5 : ((27 / 20 : ℝ)) ^ 4 ≤ Real.exp (7 / 20 : ℝ) ^ 4 :=
    pow_le_pow_left₀ (by norm_num) h4 4
  have h6 : (3 : ℝ) < (27 / 20 : ℝ) ^ 4 := by norm_num
  nlinarith

theorem softProfile_sqrt8_bounds :
    0.6 < softProfile (Real.sqrt 8) ∧ softProfile (Real.sqrt 8) < 0.77 := by
  rw [softProfile, sqrt8_coreProfile]
  constructor
  · linarith [lt_tanh_sqrt2_half]
  · linarith [tanh_sqrt2_half_lt]

theorem cellDist_uniform_00 :
    cellDist uniformSim.w uniformSim.h (centerX uniformSim 2)
      (centerY uniformSim 2) (0 % uniformSim.w) (0 / uniformSim.w) =
      Real.sqrt 8 := by
  rw [centerX_uniform_two, centerY_uniform_two,
    show 0 % uniformSim.w = 0 from rfl, show 0 / uniformSim.w = 0 from rfl,
    cellDist, castW_uniform, castH_uniform]
  push_cast
  rw [show (0 : ℝ) - 2 = -2 by norm_num,
    wrapDelta_of_between (by norm_num) (by norm_num)]
  norm_num

theorem imprint_mag_00 :
    magCell (getA (imprint uniformSim 2 2 1).u 0)
        (getA (imprint uniformSim 2 2 1).v 0) = softProfile (Real.sqrt 8) := by
  rw [imprint_mag_cell uniformSim 2 2 1 (by norm_num [uniformSim]),
    cellDist_uniform_00, mag_uniform_cell (by norm_num), mul_one]

/-- C10: `imprintSingleVortex` multiplies every cell's magnitude by exactly
`softProfile` of the torus distance to the wrapped centre, for every winding
value (the phase rotation is an isometry); the factor is below `1` for every
distance, so the injection never increases a cell's magnitude and strictly
shrinks every cell of nonzero magnitude (hence it is never the identity on a
field with a nonzero cell). -/
theorem imprint_magnitude_factor (s : Sim) (cx cy winding : ℝ) {i : ℕ}
    (hi : i < s.w * s.h) :
    magCell (getA (imprint s cx cy winding).u i)
        (getA (imprint s cx cy winding).v i) =
      softProfile (cellDist s.w s.h (centerX s cx) (centerY s cy)
          (i % s.w) (i / s.w)) *
        magCell (getA s.u i) (getA s.v i) ∧
    softProfile (cellDist s.w s.h (centerX s cx) (centerY s cy)
        (i % s.w) (i / s.w)) < 1 ∧
    magCell (getA (imprint s cx cy winding).u i)
        (getA (imprint s cx cy winding).v i) ≤
      magCell (getA s.u i) (getA s.v i) ∧
    (magCell (getA s.u i) (getA s.v i) ≠ 0 →
      magCell (getA (imprint s cx cy winding).u i)
          (getA (imprint s cx cy winding).v i) <
        magCell (getA s.u i) (getA s.v i)) := by
  have hm := imprint_mag_cell s cx cy winding hi
  have hlt := softProfile_lt_one (cellDist s.w s.h (centerX s cx) (centerY s cy)
    (i % s.w) (i / s.w))
  have hpos := softProfile_pos (cellDist_nonneg (s.w : ℝ) (s.h : ℝ)
    (centerX s cx) (centerY s cy) (i % s.w) (i / s.w))
  have hmag0 : (0 : ℝ) ≤ magCell (getA s.u i) (getA s.v i) := Real.sqrt_nonneg _
  refine ⟨hm, hlt, ?_, ?_⟩
  · rw [hm]
    nlinarith
  · intro hne
    have hmagpos : (0 : ℝ) < magCell (getA s.u i) (getA s.v i) :=
      lt_of_le_of_ne hmag0 (Ne.symm hne)
    rw [hm]
    nlinarith

/-- Witness for C10 on the uniform field, centre `(2, 2)`, winding `0`,
cell `0`. -/
theorem imprint_magnitude_factor_witness :
    (0 : ℕ) < uniformSim.w * uniformSim.h ∧
    (magCell (getA (imprint uniformSim 2 2 0).u 0)
        (getA (imprint uniformSim 2 2 0).v 0) =
      softProfile (cellDist uniformSim.w uniformSim.h (centerX uniformSim 2)
          (centerY uniformSim 2) (0 % uniformSim.w) (0 / uniformSim.w)) *
        magCell (getA uniformSim.u 0) (getA uniformSim.v 0) ∧
    softProfile (cellDist uniformSim.w uniformSim.h (centerX uniformSim 2)
        (centerY uniformSim 2) (0 % uniformSim.w) (0 / uniformSim.w)) < 1 ∧
    magCell (getA (imprint uniformSim 2 2 0).u 0)
        (getA (imprint uniformSim 2 2 0).v 0) ≤
      magCell (getA uniformSim.u 0) (getA uniformSim.v 0) ∧
    (magCell (getA uniformSim.u 0) (getA uniformSim.v 0) ≠ 0 →
      magCell (getA (imprint uniformSim 2 2 0).u 0)
          (getA (imprint uniformSim 2 2 0).v 0) <
        magCell (getA uniformSim.u 0) (getA uniformSim.v 0))) :=
  ⟨by norm_num [uniformSim],
    imprint_magnitude_factor uniformSim 2 2 0 (by norm_num [uniformSim])⟩

/-- C5: after `imprint (2, 2, +1)` on the uniform 4×4 magnitude-one field,
the cell `(2, 2)` itself ends with magnitude at most `0.2` times its
pre-imprint magnitude: the soft-core profile equals `0.2` at distance `0`. -/
theorem imprint_core_suppression :
    magCell (getA (imprint uniformSim 2 2 1).u (idx 4 2 2))
        (getA (imprint uniformSim 2 2 1).v (idx 4 2 2)) ≤
      0.2 * magCell (getA uniformSim.u (idx 4 2 2))
        (getA uniformSim.v (idx 4 2 2)) := by
  rw [show idx 4 2 2 = 10 from rfl,
    imprint_mag_cell uniformSim 2 2 1 (by norm_num [uniformSim] : (10 : ℕ) < _)]
  have hd : cellDist uniformSim.w uniformSim.h (centerX uniformSim 2)
      (centerY uniformSim 2) (10 % uniformSim.w) (10 / uniformSim.w) = 0 := by
    rw [centerX_uniform_two, centerY_uniform_two,
      show 10 % uniformSim.w = 2 from rfl, show 10 / uniformSim.w = 2 from rfl,
      cellDist, castW_uniform, castH_uniform]
    push_cast
    rw [show (2 : ℝ) - 2 = 0 by norm_num,
      wrapDelta_of_between (by norm_num) (by norm_num)]
    norm_num
  rw [hd, softProfile_zero]

/-- C4 counterexample: on the uniform 4×4 magnitude-one field, after
`imprint (2, 2, +1)` the far cell `(0, 0)` does NOT retain a magnitude
within 5% of its pre-imprint magnitude: it drops below `0.95` of it
(the soft-core profile is about `0.69` at distance `2 * sqrt 2`, since
`tanh` saturates well below `1`). -/
theorem far_cell_not_within_five_percent :
    magCell (getA uniformSim.u (idx 4 0 0)) (getA uniformSim.v (idx 4 0 0)) = 1 ∧
    magCell (getA (imprint uniformSim 2 2 1).u (idx 4 0 0))
        (getA (imprint uniformSim 2 2 1).v (idx 4 0 0)) <
      0.95 * magCell (getA uniformSim.u (idx 4 0 0))
        (getA uniformSim.v (idx 4 0 0)) := by
  have hpre : magCell (getA uniformSim.u (idx 4 0 0))
      (getA uniformSim.v (idx 4 0 0)) = 1 := mag_uniform_cell (by norm_num [idx])
  refine ⟨hpre, ?_⟩
  rw [hpre, show idx 4 0 0 = 0 from rfl, imprint_mag_00]
  have := softProfile_sqrt8_bounds.2
  linarith

/-- C4 amended: the far cell `(0, 0)` retains exactly
`softProfile (sqrt 8)` of its pre-imprint magnitude, a factor strictly
between `0.6` and `0.77` — substantial retention, but far outside the 5%
band the original claim asserts. -/
theorem far_cell_soft_factor :
    magCell (getA (imprint uniformSim 2 2 1).u (idx 4 0 0))
        (getA (imprint uniformSim 2 2 1).v (idx 4 0 0)) =
      softProfile (Real.sqrt 8) *
        magCell (getA uniformSim.u (idx 4 0 0))
          (getA uniformSim.v (idx 4 0 0)) ∧
    0.6 < softProfile (Real.sqrt 8) ∧ softProfile (Real.sqrt 8) < 0.77 := by
  refine ⟨?_, softProfile_sqrt8_bounds⟩
  rw [show idx 4 0 0 = 0 from rfl, imprint_mag_00,
    mag_uniform_cell (by norm_num), mul_one]

/- ### Double injection, centre wrapping, and the hue wheel -/

theorem imprint_w (s : Sim) (cx cy winding : ℝ) :
    (imprint s cx cy winding).w = s.w := rfl

theorem imprint_h (s : Sim) (cx cy winding : ℝ) :
    (imprint s cx cy winding).h = s.h := rfl

theorem centerX_imprint (s : Sim) (cx cy winding c : ℝ) :
    centerX (imprint s cx cy winding) c = centerX s c := rfl

theorem centerY_imprint (s : Sim) (cx cy winding c : ℝ) :
    centerY (imprint s cx cy winding) c = centerY s c := rfl

theorem imprintCell_compose (w h x1 y1 : ℝ) (x y : ℕ) (u v : ℝ) :
    (imprintCell w h x1 y1 (-1) x y (imprintCell w h x1 y1 1 x y u v).1
        (imprintCell w h x1 y1 1 x y u v).2).1 =
      softProfile (cellDist w h x1 y1 x y) ^ 2 * u ∧
    (imprintCell w h x1 y1 (-1) x y (imprintCell w h x1 y1 1 x y u v).1
        (imprintCell w h x1 y1 1 x y u v).2).2 =
      softProfile (cellDist w h x1 y1 x y) ^ 2 * v := by
  have hcs := Real.sin_sq_add_cos_sq (cellAng w h x1 y1 x y)
  simp only [imprintCell_fst, imprintCell_snd, mul_neg_one, mul_one,
    Real.cos_neg, Real.sin_neg]
  constructor
  · linear_combination (softProfile (cellDist w h x1 y1 x y) ^ 2 * u) * hcs
  · linear_combination (softProfile (cellDist w h x1 y1 x y) ^ 2 * v) * hcs

/-- C6: imprinting a `+1` vortex and then a `-1` vortex at the same centre
restores every cell's value up to the squared soft-core factor: the two
phase rotations cancel exactly (so the phase is exactly the pre-injection
phase), and the magnitude is multiplied by `softProfile dist ^ 2`, a factor
in `(0, 1)` — i.e. annihilation up to the soft-core profile's error. -/
theorem double_imprint_annihilation (s : Sim) (cx cy : ℝ) {i : ℕ}
    (hi : i < s.w * s.h) :
    getA (imprint (imprint s cx cy 1) cx cy (-1)).u i =
      softProfile (cellDist s.w s.h (centerX s cx) (centerY s cy)
        (i % s.w) (i / s.w)) ^ 2 * getA s.u i ∧
    getA (imprint (imprint s cx cy 1) cx cy (-1)).v i =
      softProfile (cellDist s.w s.h (centerX s cx) (centerY s cy)
        (i % s.w) (i / s.w)) ^ 2 * getA s.v i ∧
    0 < softProfile (cellDist s.w s.h (centerX s cx) (centerY s cy)
        (i % s.w) (i / s.w)) ∧
    softProfile (cellDist s.w s.h (centerX s cx) (centerY s cy)
        (i % s.w) (i / s.w)) < 1 := by
  have hu := imprint_u_cell (imprint s cx cy 1) cx cy (-1) (i := i) hi
  have hv := imprint_v_cell (imprint s cx cy 1) cx cy (-1) (i := i) hi
  rw [imprint_w, imprint_h, centerX_imprint, centerY_imprint,
    imprint_u_cell s cx cy 1 hi, imprint_v_cell s cx cy 1 hi] at hu hv
  rw [hu, hv]
  exact ⟨(imprintCell_compose _ _ _ _ _ _ _ _).1,
    (imprintCell_compose _ _ _ _ _ _ _ _).2,
    softProfile_pos (cellDist_nonneg _ _ _ _ _ _), softProfile_lt_one _⟩

/-- Witness for C6 on the uniform field at centre `(2, 2)`, cell `0`. -/
theorem double_imprint_annihilation_witness :
    (0 : ℕ) < uniformSim.w * uniformSim.h ∧
    (getA (imprint (imprint uniformSim 2 2 1) 2 2 (-1)).u 0 =
      softProfile (cellDist uniformSim.w uniformSim.h (centerX uniformSim 2)
        (centerY uniformSim 2) (0 % uniformSim.w) (0 / uniformSim.w)) ^ 2 *
        getA uniformSim.u 0 ∧
    getA (imprint (imprint uniformSim 2 2 1) 2 2 (-1)).v 0 =
      softProfile (cellDist uniformSim.w uniformSim.h (centerX uniformSim 2)
        (centerY uniformSim 2) (0 % uniformSim.w) (0 / uniformSim.w)) ^ 2 *
        getA uniformSim.v 0 ∧
    0 < softProfile (cellDist uniformSim.w uniformSim.h (centerX uniformSim 2)
        (centerY uniformSim 2) (0 % uniformSim.w) (0 / uniformSim.w)) ∧
    softProfile (cellDist uniformSim.w uniformSim.h (centerX uniformSim 2)
        (centerY uniformSim 2) (0 % uniformSim.w) (0 / uniformSim.w)) < 1) :=
  ⟨by norm_num [uniformSim],
    double_imprint_annihilation uniformSim 2 2 (by norm_num [uniformSim])⟩

/-- C7 amended: shifting the injection centre by whole grid periods leaves
the produced field unchanged, provided both centres stay in the range the
single `(c + extent) % extent` wrap actually normalises (at least one full
period above the negative axis, e.g. all nonnegative centres with
nonnegative `k`, `m`); centres below `-extent` are not normalised by the
single wrap and can produce a different field. -/
theorem imprint_center_periodic (s : Sim) (cx cy winding : ℝ) (k m : ℤ)
    (hw : 0 < s.w) (hh : 0 < s.h) (h1 : 0 ≤ cx + (s.w : ℝ))
    (h2 : 0 ≤ cy + (s.h : ℝ)) (h3 : 0 ≤ cx + (k : ℝ) * s.w + s.w)
    (h4 : 0 ≤ cy + (m : ℝ) * s.h + s.h) :
    imprint s (cx + (k : ℝ) * s.w) (cy + (m : ℝ) * s.h) winding =
      imprint s cx cy winding := by
  have hwr : (0 : ℝ) < s.w := by exact_mod_cast hw
  have hhr : (0 : ℝ) < s.h := by exact_mod_cast hh
  have hx : centerX s (cx + (k : ℝ) * s.w) = centerX s cx := by
    rw [centerX, centerX,
      show cx + (k : ℝ) * s.w + s.w = cx + (s.w : ℝ) + (k : ℝ) * s.w by ring]
    exact jsMod_add_int_mul k hwr h1 (by linarith)
  have hy : centerY s (cy + (m : ℝ) * s.h) = centerY s cy := by
    rw [centerY, centerY,
      show cy + (m : ℝ) * s.h + s.h = cy + (s.h : ℝ) + (m : ℝ) * s.h by ring]
    exact jsMod_add_int_mul m hhr h2 (by linarith)
  rw [imprint, imprint, hx, hy]

/-- Witness for the amended C7 at `k = m = 1` on the uniform grid. -/
theorem imprint_center_periodic_witness :
    0 < uniformSim.w ∧ 0 < uniformSim.h ∧
    (0 : ℝ) ≤ 0.5 + (uniformSim.w : ℝ) ∧ (0 : ℝ) ≤ 0.5 + (uniformSim.h : ℝ) ∧
    (0 : ℝ) ≤ 0.5 + ((1 : ℤ) : ℝ) * uniformSim.w + uniformSim.w ∧
    (0 : ℝ) ≤ 0.5 + ((1 : ℤ) : ℝ) * uniformSim.h + uniformSim.h ∧
    imprint uniformSim (0.5 + ((1 : ℤ) : ℝ) * uniformSim.w)
        (0.5 + ((1 : ℤ) : ℝ) * uniformSim.h) 1 =
      imprint uniformSim 0.5 0.5 1 :=
  ⟨by norm_num [uniformSim], by norm_num [uniformSim],
    by norm_num [uniformSim], by norm_num [uniformSim],
    by norm_num [uniformSim], by norm_num [uniformSim],
    imprint_center_periodic uniformSim 0.5 0.5 1 1 1
      (by norm_num [uniformSim]) (by norm_num [uniformSim])
      (by norm_num [uniformSim]) (by norm_num [uniformSim])
      (by norm_num [uniformSim]) (by norm_num [uniformSim])⟩

theorem wrapDelta_of_above {d e : ℝ} (h1 : d > e / 2) (h2 : ¬ d - e < -(e / 2)) :
    wrapDelta d e = d - e := by
  rw [wrapDelta, if_pos h1]
  exact if_neg h2

theorem atan2_zero_pos {x : ℝ} (hx : 0 < x) : atan2 0 x = 0 := by
  rw [atan2, if_pos hx, zero_div, Real.arctan_zero]

theorem atan2_zero_neg {x : ℝ} (hx : x < 0) : atan2 0 x = Real.pi := by
  rw [atan2, if_neg (by linarith), if_pos hx, if_pos (le_refl (0 : ℝ)),
    zero_div, Real.arctan_zero, zero_add]

theorem centerX_uniform_half : centerX uniformSim 0.5 = 0.5 := by
  have h : rtrunc (((0.5 : ℝ) + 4) / 4) = 1 :=
    rtrunc_eval (by norm_num) (by norm_num) (by norm_num)
  rw [centerX, castW_uniform, jsMod_eval h]
  norm_num

theorem centerY_uniform_zero : centerY uniformSim 0 = 0 := by
  have h : rtrunc (((0 : ℝ) + 4) / 4) = 1 :=
    rtrunc_eval (by norm_num) (by norm_num) (by norm_num)
  rw [centerY, castH_uniform, jsMod_eval h]
  norm_num

theorem centerX_uniform_shifted :
    centerX uniformSim (0.5 + (-2) * 4) = -3.5 := by
  rw [centerX, castW_uniform, show (0.5 + (-2) * 4 : ℝ) + 4 = -3.5 by norm_num,
    jsMod_eval (rtrunc_neg_small (by norm_num) (by norm_num))]
  norm_num

theorem shifted_cell3_pos :
    0 < getA (imprint uniformSim (0.5 + (-2) * 4) 0 1).u 3 := by
  rw [imprint_u_cell uniformSim (0.5 + (-2) * 4) 0 1 (by norm_num [uniformSim]),
    centerX_uniform_shifted, centerY_uniform_zero,
    show (3 : ℕ) % uniformSim.w = 3 from rfl,
    show (3 : ℕ) / uniformSim.w = 0 from rfl, imprintCell_fst,
    show getA uniformSim.u 3 = 1 from getA_replicate _ (by norm_num),
    show getA uniformSim.v 3 = 0 from getA_replicate _ (by norm_num)]
  have hang : cellAng uniformSim.w uniformSim.h (-3.5) 0 3 0 = 0 := by
    rw [cellAng, castW_uniform, castH_uniform]
    push_cast
    rw [show (3 : ℝ) - (-3.5) = 6.5 by norm_num, show (0 : ℝ) - 0 = 0 by norm_num,
      wrapDelta_of_between (by norm_num) (by norm_num),
      wrapDelta_of_above (by norm_num) (by norm_num),
      show (6.5 : ℝ) - 4 = 2.5 by norm_num]
    exact atan2_zero_pos (by norm_num)
  rw [hang, zero_mul, Real.cos_zero, Real.sin_zero]
  have hpos := softProfile_pos
    (cellDist_nonneg (uniformSim.w : ℝ) (uniformSim.h : ℝ) (-3.5) 0 3 0)
  nlinarith

theorem base_cell3_neg : getA (imprint uniformSim 0.5 0 1).u 3 < 0 := by
  rw [imprint_u_cell uniformSim 0.5 0 1 (by norm_num [uniformSim]),
    centerX_uniform_half, centerY_uniform_zero,
    show (3 : ℕ) % uniformSim.w = 3 from rfl,
    show (3 : ℕ) / uniformSim.w = 0 from rfl, imprintCell_fst,
    show getA uniformSim.u 3 = 1 from getA_replicate _ (by norm_num),
    show getA uniformSim.v 3 = 0 from getA_replicate _ (by norm_num)]
  have hang : cellAng uniformSim.w uniformSim.h 0.5 0 3 0 = Real.pi := by
    rw [cellAng, castW_uniform, castH_uniform]
    push_cast
    rw [show (3 : ℝ) - 0.5 = 2.5 by norm_num, show (0 : ℝ) - 0 = 0 by norm_num,
      wrapDelta_of_between (by norm_num) (by norm_num),
      wrapDelta_of_above (by norm_num) (by norm_num),
      show (2.5 : ℝ) - 4 = -1.5 by norm_num]
    exact atan2_zero_neg (by norm_num)
  rw [hang, mul_one, Real.cos_pi, Real.sin_pi]
  have hpos := softProfile_pos
    (cellDist_nonneg (uniformSim.w : ℝ) (uniformSim.h : ℝ) 0.5 0 3 0)
  nlinarith

/-- C7 counterexample: with `cx = 0.5`, `k = -2` (centre `0.5 - 2*4 = -7.5`)
on the uniform 4×4 field, the shifted call produces a different field: the
single `(cx + w) % w` wrap leaves the centre at `-3.5` (JS `%` keeps the
dividend's sign), so cell `(3, 0)` gets a positive value instead of the
negative one the unshifted call writes. -/
theorem imprint_shift_changes_field :
    imprint uniformSim (0.5 + (-2) * 4) 0 1 ≠ imprint uniformSim 0.5 0 1 := by
  intro hEq
  have h3 : getA (imprint uniformSim (0.5 + (-2) * 4) 0 1).u 3 =
      getA (imprint uniformSim 0.5 0 1).u 3 := by rw [hEq]
  have hA := shifted_cell3_pos
  have hB := base_cell3_neg
  linarith [h3 ▸ hA]

/-- C8: the hue computed by `draw` maps the phase discontinuity at `±π` to
the single hue value `180`: `hueOf (-π) = hueOf π = 180`. -/
theorem hue_wrap_at_pi : hueOf (-Real.pi) = hueOf Real.pi ∧
    hueOf Real.pi = 180 := by
  have e1 : (-Real.pi) * 180 / Real.pi + 360 = 180 := by
    field_simp
    ring
  have e2 : Real.pi * 180 / Real.pi + 360 = 540 := by
    field_simp
    norm_num
  have r1 : rtrunc ((180 : ℝ) / 360) = 0 :=
    rtrunc_eval (by norm_num) (by norm_num) (by norm_num)
  have r2 : rtrunc ((540 : ℝ) / 360) = 1 :=
    rtrunc_eval (by norm_num) (by norm_num) (by norm_num)
  rw [hueOf, hueOf, e1, e2, jsMod_eval r1, jsMod_eval r2]
  norm_num

theorem goodShape_allocate (w h : ℕ) (d dt : ℝ) : goodShape (allocate w h d dt) := by
  simp [goodShape, allocate]

theorem goodShape_applyOp (s : Sim) (hs : goodShape s) (o : Op) :
    goodShape (applyOp s o) := by
  obtain ⟨h1, h2, h3, h4⟩ := hs
  cases o with
  | phys noiseLevel xiU xiV =>
    by_cases hn : noiseLevel > 0 <;>
      simp [applyOp, updatePhysics, goodShape, hn, h1, h2]
  | vortex cx cy winding =>
    simp [applyOp, imprint, goodShape, h3, h4]

/-- C9: after `allocate`, all four component arrays have length exactly
`w * h`, and this shape invariant is preserved by any finite sequence of
`updatePhysics` and `imprintSingleVortex` calls. -/
theorem buffer_shape_invariant (w h : ℕ) (d dt : ℝ) :
    goodShape (allocate w h d dt) ∧
    ∀ ops : List Op, goodShape (ops.foldl applyOp (allocate w h d dt)) := by
  have base := goodShape_allocate w h d dt
  have preserve : ∀ (ops : List Op) (s : Sim), goodShape s →
      goodShape (ops.foldl applyOp s) := by
    intro ops
    induction ops with
    | nil => exact fun s hs => hs
    | cons o rest ih => exact fun s hs => ih _ (goodShape_applyOp s hs o)
  exact ⟨base, fun ops => preserve ops _ base⟩

end

end Ginzburg
